import Mathlib

/-!
# Verification of the contextsmith context-assembly engine

Shallow embedding of the core algorithms of the `contextsmith` repository
(unified-diff parser, range merger, slicer, ranker, greedy budget packer,
manifest model) together with proofs of the specification's claims about
them.  Each definition mirrors one Rust function of the source tree; the
file and line references are given in the doc comments.

Modelling conventions:
* Rust `usize` is modelled by `Nat` (the values involved are small line
  numbers, counts and byte lengths, far from `usize::MAX`, so wrap-around
  is never reached in the source).
* Rust `f64` is modelled by `ℝ` where only algebra matters (ranker
  scores) and by `ℚ` where only structural round-tripping matters
  (manifest serialization); the concrete score arithmetic performed by
  the source is exact in double precision on the relevant operands.
* Rust `&str`/`String` is `String`; string scanning helpers are written
  over `List Char` to keep everything kernel-computable.
* Iterating over `input.lines()` is modelled by `rustLines`, a direct
  translation of Rust's `str::lines` (split on `'\n'`, drop a trailing
  empty segment, strip a trailing `'\r'` from each line).
-/

namespace ContextSmith

/-! ## String scanning helpers

Executable models of the `str` operations used by the source:
`strip_prefix`, `starts_with`, `find`/`splitn`, `split`, `split_once`
and `usize::from_str`. -/

/-- Remove the leading pattern `ps` from `cs`, or fail. Model of
Rust `str::strip_prefix`. -/
def removeLeading : List Char → List Char → Option (List Char)
  | [], cs => some cs
  | _ :: _, [] => none
  | p :: ps, c :: cs => if c = p then removeLeading ps cs else none

/-- Rust `s.strip_prefix(pat)`. -/
def stripStr (pat s : String) : Option String :=
  (removeLeading pat.toList s.toList).map fun cs => String.mk cs

/-- Rust `s.starts_with(pat)`. -/
def startsWithStr (pat s : String) : Bool :=
  (removeLeading pat.toList s.toList).isSome

/-- Split at the first occurrence of the pattern: returns the part
before the match and the part after it.  Model of Rust
`s.find(pat)` + slicing, and of `s.splitn(2, pat)`. -/
def splitFirstAux (pat : List Char) : List Char → Option (List Char × List Char)
  | [] =>
    match removeLeading pat [] with
    | some rest => some ([], rest)
    | none => none
  | c :: cs =>
    match removeLeading pat (c :: cs) with
    | some rest => some ([], rest)
    | none => (splitFirstAux pat cs).map fun p => (c :: p.1, p.2)

/-- Rust `s.split_once(pat)` (and `splitn(2, pat)` up to packaging). -/
def splitFirstStr (pat s : String) : Option (String × String) :=
  (splitFirstAux pat.toList s.toList).map fun p => (String.mk p.1, String.mk p.2)

/-- Split on every occurrence of a character, keeping empty segments.
Model of Rust `s.split(c)`. -/
def splitCharAux (c : Char) : List Char → List Char → List (List Char)
  | [], acc => [acc.reverse]
  | x :: xs, acc =>
    if x = c then acc.reverse :: splitCharAux c xs []
    else splitCharAux c xs (x :: acc)

/-- Rust `s.split(c).collect::<Vec<_>>()`. -/
def splitChar (c : Char) (s : String) : List String :=
  (splitCharAux c s.toList []).map fun cs => String.mk cs

/-- Digit-string value; fails on non-digits and on the empty string. -/
def parseNatCore : List Char → Option Nat
  | [] => none
  | cs =>
    if cs.all Char.isDigit then
      some (cs.foldl (fun acc c => acc * 10 + (c.toNat - '0'.toNat)) 0)
    else none

/-- Rust `s.parse::<usize>()`: optional leading `'+'`, then one or more
digits (overflow cannot occur in `Nat`). -/
def parseNatR (s : String) : Option Nat :=
  match s.toList with
  | '+' :: rest => parseNatCore rest
  | l => parseNatCore l

/-- Rust `str::lines`: split on `'\n'`, drop the trailing empty segment
produced by a terminating newline, and strip one trailing `'\r'`. -/
def rustLines (s : String) : List String :=
  let segs := splitCharAux '\n' s.toList []
  let segs := if segs.getLast? = some [] then segs.dropLast else segs
  segs.map fun cs =>
    String.mk (if cs.getLast? = some '\r' then cs.dropLast else cs)

/-! ## Range merger (`src/slicer.rs`, `merge_overlapping_ranges` and the
sort in `compute_merged_ranges`) -/

/-- The loop body of `merge_overlapping_ranges` (src/slicer.rs:204-219):
`cur` is the last element of the `merged` vector; a new range is folded
into it when it overlaps or is adjacent (`start <= cur.2 + 1`),
otherwise `cur` is emitted and the new range becomes the last element. -/
def mergeLoop (cur : Nat × Nat) : List (Nat × Nat) → List (Nat × Nat)
  | [] => [cur]
  | (s, e) :: rest =>
    if s ≤ cur.2 + 1 then mergeLoop (cur.1, max cur.2 e) rest
    else cur :: mergeLoop (s, e) rest

/-- Rust `merge_overlapping_ranges` (src/slicer.rs:204-219): expects its
input sorted by start. -/
def merge_overlapping_ranges : List (Nat × Nat) → List (Nat × Nat)
  | [] => []
  | r :: rest => mergeLoop r rest

/-- Comparison of ranges by start, the key used by
`ranges.sort_by_key(|&(s, _)| s)` (src/slicer.rs:199). -/
def startLE (a b : Nat × Nat) : Prop := a.1 ≤ b.1

instance : DecidableRel startLE := fun a b => Nat.decLe a.1 b.1

instance : IsTotal (Nat × Nat) startLE := ⟨fun a b => Nat.le_total a.1 b.1⟩

instance : IsTrans (Nat × Nat) startLE := ⟨fun _ _ _ => Nat.le_trans⟩

/-- The composed range-merge operation of `compute_merged_ranges`
(src/slicer.rs:199-200): stable sort by start, then merge overlapping
or adjacent ranges.  Rust's `sort_by_key` is a stable sort; insertion
sort is stable. -/
def mergeRanges (l : List (Nat × Nat)) : List (Nat × Nat) :=
  merge_overlapping_ranges (l.insertionSort startLE)

/-! ## Diff data model (`src/git.rs:33-90`) -/

/-- `FileStatus` (src/git.rs:47-52). -/
inductive FileStatus where
  | Added
  | Modified
  | Deleted
  | Renamed
deriving DecidableEq, Repr

/-- `LineKind` (src/git.rs:86-90). -/
inductive LineKind where
  | Context
  | Added
  | Removed
deriving DecidableEq, Repr

/-- `DiffLine` (src/git.rs:73-82). -/
structure DiffLine where
  kind : LineKind
  content : String
  old_lineno : Option Nat
  new_lineno : Option Nat
deriving DecidableEq, Repr

/-- `DiffHunk` (src/git.rs:56-69). -/
structure DiffHunk where
  old_start : Nat
  old_count : Nat
  new_start : Nat
  new_count : Nat
  header : String
  lines : List DiffLine
deriving DecidableEq, Repr

/-- `DiffFile` (src/git.rs:34-43). -/
structure DiffFile where
  path : String
  old_path : Option String
  status : FileStatus
  hunks : List DiffHunk
deriving DecidableEq, Repr

/-! ## Unified diff parser (`src/git.rs:232-400`) -/

/-- `parse_diff_header` (src/git.rs:354-366): extract `(a_path, b_path)`
from a `diff --git a/<p1> b/<p2>` line. `splitn(2, " b/")` is modelled
by splitting at the first occurrence. -/
def parse_diff_header (line : String) : String × String :=
  let rest := (stripStr "diff --git " line).getD line
  match splitFirstStr " b/" rest with
  | none => (((stripStr "a/" rest).getD rest), "")
  | some (before, after) => (((stripStr "a/" before).getD before), after)

/-- `parse_range` (src/git.rs:394-400): parse `"10,7"` or `"10"` into
`(start, count)` with the count defaulting to 1. -/
def parse_range (s : String) : Option (Nat × Nat) :=
  match splitFirstStr "," s with
  | some (start, count) => do
    let a ← parseNatR start
    let b ← parseNatR count
    pure (a, b)
  | none => do
    let a ← parseNatR s
    pure (a, 1)

/-- `parse_hunk_header` (src/git.rs:369-391): parse an
`@@ -10,7 +10,8 @@ ...` line into a fresh `DiffHunk` with no lines. -/
def parse_hunk_header (line : String) : Option DiffHunk := do
  let trimmed ← stripStr "@@ " line
  let (range_str, _) ← splitFirstStr " @@" trimmed
  let parts := splitChar ' ' range_str
  if h2 : parts.length < 2 then none
  else do
    let p0 := parts.get ⟨0, by omega⟩
    let p1 := parts.get ⟨1, by omega⟩
    let (old_start, old_count) ← parse_range (← stripStr "-" p0)
    let (new_start, new_count) ← parse_range (← stripStr "+" p1)
    pure { old_start, old_count, new_start, new_count,
           header := line, lines := [] }

/-- The mutable state of the parsing loop in `parse_unified_diff`
(src/git.rs:233-237). -/
structure ParserState where
  files : List DiffFile
  current_file : Option DiffFile
  current_hunk : Option DiffHunk
  old_lineno : Nat
  new_lineno : Nat
deriving Repr

def ParserState.init : ParserState :=
  { files := [], current_file := none, current_hunk := none,
    old_lineno := 0, new_lineno := 0 }

/-- `flush_hunk` (src/git.rs:347-351).  Note that `hunk.take()` runs
unconditionally in the Rust tuple pattern, so the current hunk is
always cleared even when there is no current file to receive it. -/
def flushHunk (s : ParserState) : ParserState :=
  match s.current_file, s.current_hunk with
  | some f, some h =>
    { s with current_file := some { f with hunks := f.hunks ++ [h] },
             current_hunk := none }
  | _, _ => { s with current_hunk := none }

/-- `if let Some(file) = current_file.take() { files.push(file) }`
(src/git.rs:244-246). -/
def flushFile (s : ParserState) : ParserState :=
  match s.current_file with
  | some f => { s with files := s.files ++ [f], current_file := none }
  | none => s

/-- The new `DiffFile` record opened by a `diff --git` line
(src/git.rs:248-260). -/
def newFileOf (line : String) : DiffFile :=
  let (a_path, b_path) := parse_diff_header line
  { path := b_path,
    old_path := if a_path ≠ b_path then some a_path else none,
    status := if a_path ≠ b_path then FileStatus.Renamed else FileStatus.Modified,
    hunks := [] }

/-- `hunk.lines.push(line)` (src/git.rs:296-333). -/
def pushHunkLine (hunk : DiffHunk) (l : DiffLine) : DiffHunk :=
  { hunk with lines := hunk.lines ++ [l] }

/-- One iteration of the `for line in input.lines()` loop of
`parse_unified_diff` (src/git.rs:239-335), branch for branch. -/
def parseStep (s : ParserState) (line : String) : ParserState :=
  if startsWithStr "diff --git " line then
    { flushFile (flushHunk s) with current_file := some (newFileOf line) }
  else if startsWithStr "--- /dev/null" line then
    match s.current_file with
    | some f => { s with current_file := some { f with status := FileStatus.Added } }
    | none => s
  else if startsWithStr "+++ /dev/null" line then
    match s.current_file with
    | some f => { s with current_file := some { f with status := FileStatus.Deleted } }
    | none => s
  else if startsWithStr "--- " line ∨ startsWithStr "+++ " line then
    s
  else if startsWithStr "@@ " line then
    match parse_hunk_header line with
    | some hunk =>
      { flushHunk s with old_lineno := hunk.old_start, new_lineno := hunk.new_start,
                         current_hunk := some hunk }
    | none => flushHunk s
  else
    match s.current_hunk with
    | none => s
    | some hunk =>
      match stripStr "+" line with
      | some stripped =>
        { s with current_hunk := some (pushHunkLine hunk ⟨LineKind.Added, stripped, none, some s.new_lineno⟩),
                 new_lineno := s.new_lineno + 1 }
      | none =>
        match stripStr "-" line with
        | some stripped =>
          { s with current_hunk := some (pushHunkLine hunk ⟨LineKind.Removed, stripped, some s.old_lineno, none⟩),
                   old_lineno := s.old_lineno + 1 }
        | none =>
          match stripStr " " line with
          | some stripped =>
            { s with current_hunk := some (pushHunkLine hunk ⟨LineKind.Context, stripped, some s.old_lineno, some s.new_lineno⟩),
                     old_lineno := s.old_lineno + 1, new_lineno := s.new_lineno + 1 }
          | none =>
            if line = "\\ No newline at end of file" then s
            else
              { s with current_hunk := some (pushHunkLine hunk ⟨LineKind.Context, line, some s.old_lineno, some s.new_lineno⟩),
                       old_lineno := s.old_lineno + 1, new_lineno := s.new_lineno + 1 }

/-- The trailing flush of `parse_unified_diff` (src/git.rs:338-343). -/
def parseFinish (s : ParserState) : List DiffFile :=
  match (flushHunk s).current_file with
  | some f => (flushHunk s).files ++ [f]
  | none => (flushHunk s).files

/-- `parse_unified_diff` (src/git.rs:232-344) on an already-split list
of input lines. -/
def parseUnifiedDiffLines (lines : List String) : List DiffFile :=
  parseFinish (lines.foldl parseStep ParserState.init)

/-- `parse_unified_diff` (src/git.rs:232-344). -/
def parse_unified_diff (input : String) : List DiffFile :=
  parseUnifiedDiffLines (rustLines input)

/-! ## Parser invariants

The parsing loop only ever pushes `DiffLine` records of three fixed
shapes; the following well-formedness predicates capture the claimed
invariant and are shown to be preserved by every branch of
`parseStep`. -/

/-- The claimed line-number/kind invariant for a single diff line. -/
def lineWF (l : DiffLine) : Prop :=
  match l.kind with
  | LineKind.Added => l.old_lineno = none ∧ l.new_lineno.isSome = true
  | LineKind.Removed => l.old_lineno.isSome = true ∧ l.new_lineno = none
  | LineKind.Context => l.old_lineno.isSome = true ∧ l.new_lineno.isSome = true

def hunkWF (h : DiffHunk) : Prop := ∀ l ∈ h.lines, lineWF l

def fileWF (f : DiffFile) : Prop := ∀ h ∈ f.hunks, hunkWF h

def stateWF (s : ParserState) : Prop :=
  (∀ f ∈ s.files, fileWF f) ∧
  (∀ f, s.current_file = some f → fileWF f) ∧
  (∀ h, s.current_hunk = some h → hunkWF h)

lemma stateWF_init : stateWF ParserState.init := by
  refine ⟨?_, ?_, ?_⟩ <;> simp [ParserState.init]

lemma newFileOf_hunks (line : String) : (newFileOf line).hunks = [] := by
  unfold newFileOf
  rcases parse_diff_header line with ⟨a, b⟩
  rfl

lemma parse_hunk_header_lines {line : String} {hk : DiffHunk}
    (h : parse_hunk_header line = some hk) : hk.lines = [] := by
  simp only [parse_hunk_header, Option.bind_eq_bind, Option.bind_eq_some] at h
  obtain ⟨a, _, h⟩ := h
  obtain ⟨⟨rs, rest⟩, _, h⟩ := h
  split at h
  · simp at h
  · simp only [Option.bind_eq_some, Option.pure_def, Option.some.injEq] at h
    obtain ⟨_, _, ⟨_, _⟩, _, _, _, ⟨_, _⟩, _, hk'⟩ := h
    subst hk'
    rfl

lemma flushHunk_WF {s : ParserState} (h : stateWF s) : stateWF (flushHunk s) := by
  obtain ⟨h1, h2, h3⟩ := h
  rcases hcf : s.current_file with _ | f <;> rcases hch : s.current_hunk with _ | hk <;>
    simp only [flushHunk, hcf, hch]
  · exact ⟨h1, by simp, by simp⟩
  · exact ⟨h1, by simp, by simp⟩
  · refine ⟨h1, ?_, by simp⟩
    intro f2 hf2
    simp only [Option.some.injEq] at hf2
    subst hf2
    exact h2 f hcf
  · refine ⟨h1, ?_, by simp⟩
    intro f2 hf2
    simp only [Option.some.injEq] at hf2
    subst hf2
    intro hu hmem
    simp only [List.mem_append, List.mem_singleton] at hmem
    rcases hmem with hmem | hmem
    · exact h2 f hcf hu hmem
    · exact hmem ▸ h3 hk hch

lemma flushFile_WF {s : ParserState} (h : stateWF s) : stateWF (flushFile s) := by
  obtain ⟨h1, h2, h3⟩ := h
  rcases hcf : s.current_file with _ | f <;> simp only [flushFile, hcf]
  · exact ⟨h1, h2, h3⟩
  · refine ⟨?_, by simp, h3⟩
    intro f2 hmem
    simp only [List.mem_append, List.mem_singleton] at hmem
    rcases hmem with hmem | hmem
    · exact h1 f2 hmem
    · exact hmem ▸ h2 f hcf

/-- Pushing a well-formed line into the current hunk preserves state
well-formedness; this is the shape of all four content branches. -/
lemma stateWF_pushLine {s : ParserState} (hS : stateWF s) {hk : DiffHunk}
    (hch : s.current_hunk = some hk) (l : DiffLine) (hl : lineWF l) (o n : Nat) :
    stateWF { s with current_hunk := some (pushHunkLine hk l),
                     old_lineno := o, new_lineno := n } := by
  obtain ⟨h1, h2, h3⟩ := hS
  refine ⟨h1, h2, ?_⟩
  intro hk2 hh
  simp only [Option.some.injEq] at hh
  subst hh
  intro l2 hl2
  simp only [pushHunkLine, List.mem_append, List.mem_singleton] at hl2
  rcases hl2 with hl2 | hl2
  · exact h3 hk hch l2 hl2
  · subst hl2; exact hl

lemma parseStep_WF {s : ParserState} (line : String) (h : stateWF s) :
    stateWF (parseStep s line) := by
  unfold parseStep
  split_ifs with g1 g2 g3 g4 g5 g6
  · -- diff --git branch
    obtain ⟨h1, h2, h3⟩ := flushFile_WF (flushHunk_WF h)
    refine ⟨h1, ?_, h3⟩
    intro f2 hf2
    simp only [Option.some.injEq] at hf2
    subst hf2
    intro hu hmem
    rw [newFileOf_hunks] at hmem
    simp at hmem
  · -- "--- /dev/null"
    obtain ⟨h1, h2, h3⟩ := h
    rcases hcf : s.current_file with _ | f0 <;> simp only [hcf]
    · exact ⟨h1, h2, h3⟩
    · refine ⟨h1, ?_, h3⟩
      intro f hf2
      simp only [Option.some.injEq] at hf2
      subst hf2
      exact h2 f0 hcf
  · -- "+++ /dev/null"
    obtain ⟨h1, h2, h3⟩ := h
    rcases hcf : s.current_file with _ | f0 <;> simp only [hcf]
    · exact ⟨h1, h2, h3⟩
    · refine ⟨h1, ?_, h3⟩
      intro f hf2
      simp only [Option.some.injEq] at hf2
      subst hf2
      exact h2 f0 hcf
  · -- "--- " / "+++ " skip
    exact h
  · -- hunk header
    obtain ⟨h1, h2, h3⟩ := flushHunk_WF h
    rcases hph : parse_hunk_header line with _ | hk <;> simp only [hph]
    · exact ⟨h1, h2, h3⟩
    · refine ⟨h1, h2, ?_⟩
      intro hk2 hh
      simp only [Option.some.injEq] at hh
      subst hh
      intro l hl
      rw [parse_hunk_header_lines hph] at hl
      simp at hl
  · -- content line equal to the no-newline marker
    rcases hch : s.current_hunk with _ | hk
    · simpa only [hch] using h
    · simp only [hch]
      rcases hp : stripStr "+" line with _ | c1
      · simp only [hp]
        rcases hm : stripStr "-" line with _ | c2
        · simp only [hm]
          rcases hsp : stripStr " " line with _ | c3
          · simp only [hsp]; exact h
          · simp only [hsp]
            exact stateWF_pushLine h hch ⟨LineKind.Context, c3, some s.old_lineno, some s.new_lineno⟩ ⟨rfl, rfl⟩ _ _
        · simp only [hm]
          exact stateWF_pushLine h hch ⟨LineKind.Removed, c2, some s.old_lineno, none⟩ ⟨rfl, rfl⟩ _ _
      · simp only [hp]
        exact stateWF_pushLine h hch ⟨LineKind.Added, c1, none, some s.new_lineno⟩ ⟨rfl, rfl⟩ _ _
  · -- ordinary content line
    rcases hch : s.current_hunk with _ | hk
    · simpa only [hch] using h
    · simp only [hch]
      rcases hp : stripStr "+" line with _ | c1
      · simp only [hp]
        rcases hm : stripStr "-" line with _ | c2
        · simp only [hm]
          rcases hsp : stripStr " " line with _ | c3
          · simp only [hsp]
            exact stateWF_pushLine h hch ⟨LineKind.Context, line, some s.old_lineno, some s.new_lineno⟩ ⟨rfl, rfl⟩ _ _
          · simp only [hsp]
            exact stateWF_pushLine h hch ⟨LineKind.Context, c3, some s.old_lineno, some s.new_lineno⟩ ⟨rfl, rfl⟩ _ _
        · simp only [hm]
          exact stateWF_pushLine h hch ⟨LineKind.Removed, c2, some s.old_lineno, none⟩ ⟨rfl, rfl⟩ _ _
      · simp only [hp]
        exact stateWF_pushLine h hch ⟨LineKind.Added, c1, none, some s.new_lineno⟩ ⟨rfl, rfl⟩ _ _

lemma foldl_parseStep_WF (lines : List String) :
    stateWF (lines.foldl parseStep ParserState.init) := by
  have : ∀ (s : ParserState), stateWF s → stateWF (lines.foldl parseStep s) := by
    induction lines with
    | nil => exact fun s h => h
    | cons a t ih =>
      intro s h
      exact ih (parseStep s a) (parseStep_WF a h)
  exact this _ stateWF_init

lemma parseFinish_WF {s : ParserState} (h : stateWF s) :
    ∀ f ∈ parseFinish s, fileWF f := by
  have hf := flushHunk_WF h
  obtain ⟨h1, h2, _⟩ := hf
  unfold parseFinish
  intro f hmem
  rcases hcf : (flushHunk s).current_file with _ | f0 <;> simp only [hcf] at hmem
  · exact h1 f hmem
  · simp only [List.mem_append, List.mem_singleton] at hmem
    rcases hmem with hmem | hmem
    · exact h1 f hmem
    · exact hmem ▸ h2 f0 hcf

/-! ## The old_path/status relationship (claim C3)

`old_path` is assigned exactly once (at the `diff --git` header) and
only `--- /dev/null` / `+++ /dev/null` lines later overwrite `status`;
the two directions of the claimed equivalence behave differently. -/

/-- A file-level property that only depends on `old_path` and `status`
holds for all output files as soon as it holds for every tracked file. -/
def stateP (P : DiffFile → Prop) (s : ParserState) : Prop :=
  (∀ f ∈ s.files, P f) ∧ (∀ f, s.current_file = some f → P f)

lemma flushHunk_stateP {P : DiffFile → Prop}
    (hP : ∀ f hk, P f → P { f with hunks := f.hunks ++ [hk] })
    {s : ParserState} (h : stateP P s) : stateP P (flushHunk s) := by
  obtain ⟨h1, h2⟩ := h
  rcases hcf : s.current_file with _ | f <;> rcases hch : s.current_hunk with _ | hk <;>
    simp only [flushHunk, hcf, hch]
  · exact ⟨h1, by simp⟩
  · exact ⟨h1, by simp⟩
  · refine ⟨h1, ?_⟩
    intro f2 hf2
    simp only [Option.some.injEq] at hf2
    subst hf2
    exact h2 f hcf
  · refine ⟨h1, ?_⟩
    intro f2 hf2
    simp only [Option.some.injEq] at hf2
    subst hf2
    exact hP f hk (h2 f hcf)

lemma flushFile_stateP {P : DiffFile → Prop} {s : ParserState}
    (h : stateP P s) : stateP P (flushFile s) := by
  obtain ⟨h1, h2⟩ := h
  rcases hcf : s.current_file with _ | f <;> simp only [flushFile, hcf]
  · exact ⟨h1, h2⟩
  · refine ⟨?_, by simp⟩
    intro f2 hmem
    simp only [List.mem_append, List.mem_singleton] at hmem
    rcases hmem with hmem | hmem
    · exact h1 f2 hmem
    · exact hmem ▸ h2 f hcf

lemma parseFinish_stateP {P : DiffFile → Prop}
    (hP : ∀ f hk, P f → P { f with hunks := f.hunks ++ [hk] })
    {s : ParserState} (h : stateP P s) : ∀ f ∈ parseFinish s, P f := by
  obtain ⟨h1, h2⟩ := flushHunk_stateP hP h
  unfold parseFinish
  intro f hmem
  rcases hcf : (flushHunk s).current_file with _ | f0 <;> simp only [hcf] at hmem
  · exact h1 f hmem
  · simp only [List.mem_append, List.mem_singleton] at hmem
    rcases hmem with hmem | hmem
    · exact h1 f hmem
    · exact hmem ▸ h2 f0 hcf

/-- Renamed status implies a recorded old path. -/
def fileRen (f : DiffFile) : Prop :=
  f.status = FileStatus.Renamed → f.old_path.isSome = true

/-- The claimed equivalence between `old_path` and `Renamed`. -/
def fileIff (f : DiffFile) : Prop :=
  f.old_path.isSome = true ↔ f.status = FileStatus.Renamed

lemma newFileOf_fileIff (line : String) : fileIff (newFileOf line) := by
  unfold newFileOf fileIff
  rcases parse_diff_header line with ⟨a, b⟩
  by_cases hab : a = b <;> simp [hab]

/-- A line is free of the `/dev/null` status markers. -/
def noDevNull (l : String) : Bool :=
  !(startsWithStr "--- /dev/null" l) && !(startsWithStr "+++ /dev/null" l)

lemma parseStep_stateRen {s : ParserState} (line : String)
    (h : stateP fileRen s) : stateP fileRen (parseStep s line) := by
  unfold parseStep
  split_ifs with g1 g2 g3 g4 g5 g6
  · -- diff --git
    obtain ⟨h1, h2⟩ := flushFile_stateP (flushHunk_stateP (fun _ _ hf => hf) h)
    refine ⟨h1, ?_⟩
    intro f2 hf2
    simp only [Option.some.injEq] at hf2
    subst hf2
    intro hren
    exact (newFileOf_fileIff line).mpr hren
  · -- "--- /dev/null": status overwritten to Added
    obtain ⟨h1, h2⟩ := h
    rcases hcf : s.current_file with _ | f0 <;> simp only [hcf]
    · exact ⟨h1, h2⟩
    · refine ⟨h1, ?_⟩
      intro f hf2
      simp only [Option.some.injEq] at hf2
      subst hf2
      intro hren
      simp only [] at hren
      exact absurd hren (by simp)
  · -- "+++ /dev/null": status overwritten to Deleted
    obtain ⟨h1, h2⟩ := h
    rcases hcf : s.current_file with _ | f0 <;> simp only [hcf]
    · exact ⟨h1, h2⟩
    · refine ⟨h1, ?_⟩
      intro f hf2
      simp only [Option.some.injEq] at hf2
      subst hf2
      intro hren
      exact absurd hren (by simp)
  · exact h
  · -- hunk header: files and current_file unchanged by the hunk update
    obtain ⟨h1, h2⟩ := flushHunk_stateP (fun _ _ hf => hf) h
    rcases hph : parse_hunk_header line with _ | hk <;> simp only [hph]
    · exact ⟨h1, h2⟩
    · exact ⟨h1, h2⟩
  · -- marker content line: state change only touches the hunk
    rcases hch : s.current_hunk with _ | hk
    · simpa only [hch] using h
    · simp only [hch]
      rcases hp : stripStr "+" line with _ | c1 <;>
        rcases hm : stripStr "-" line with _ | c2 <;>
        rcases hsp : stripStr " " line with _ | c3 <;>
        simp only [hp, hm, hsp] <;> exact h
  · -- ordinary content line: state change only touches the hunk
    rcases hch : s.current_hunk with _ | hk
    · simpa only [hch] using h
    · simp only [hch]
      rcases hp : stripStr "+" line with _ | c1 <;>
        rcases hm : stripStr "-" line with _ | c2 <;>
        rcases hsp : stripStr " " line with _ | c3 <;>
        simp only [hp, hm, hsp] <;> exact h

lemma parseStep_stateIff {s : ParserState} (line : String)
    (hdev : noDevNull line = true) (h : stateP fileIff s) :
    stateP fileIff (parseStep s line) := by
  have hdev1 : ¬ startsWithStr "--- /dev/null" line = true := by
    simp only [noDevNull, Bool.and_eq_true, Bool.not_eq_true'] at hdev
    simp [hdev.1]
  have hdev2 : ¬ startsWithStr "+++ /dev/null" line = true := by
    simp only [noDevNull, Bool.and_eq_true, Bool.not_eq_true'] at hdev
    simp [hdev.2]
  unfold parseStep
  split_ifs with g1 g2 g3 g4
  · -- diff --git
    obtain ⟨h1, h2⟩ := flushFile_stateP (flushHunk_stateP (fun _ _ hf => hf) h)
    refine ⟨h1, ?_⟩
    intro f2 hf2
    simp only [Option.some.injEq] at hf2
    subst hf2
    exact newFileOf_fileIff line
  · exact h
  · -- hunk header
    obtain ⟨h1, h2⟩ := flushHunk_stateP (fun _ _ hf => hf) h
    rcases hph : parse_hunk_header line with _ | hk <;> simp only [hph]
    · exact ⟨h1, h2⟩
    · exact ⟨h1, h2⟩
  · -- marker content line
    rcases hch : s.current_hunk with _ | hk
    · simpa only [hch] using h
    · simp only [hch]
      rcases hp : stripStr "+" line with _ | c1 <;>
        rcases hm : stripStr "-" line with _ | c2 <;>
        rcases hsp : stripStr " " line with _ | c3 <;>
        simp only [hp, hm, hsp] <;> exact h
  · -- ordinary content line
    rcases hch : s.current_hunk with _ | hk
    · simpa only [hch] using h
    · simp only [hch]
      rcases hp : stripStr "+" line with _ | c1 <;>
        rcases hm : stripStr "-" line with _ | c2 <;>
        rcases hsp : stripStr " " line with _ | c3 <;>
        simp only [hp, hm, hsp] <;> exact h

lemma stateP_init (P : DiffFile → Prop) : stateP P ParserState.init := by
  refine ⟨?_, ?_⟩ <;> simp [ParserState.init]

lemma foldl_stateRen (lines : List String) :
    stateP fileRen (lines.foldl parseStep ParserState.init) := by
  have : ∀ (s : ParserState), stateP fileRen s →
      stateP fileRen (lines.foldl parseStep s) := by
    induction lines with
    | nil => exact fun s h => h
    | cons a t ih => exact fun s h => ih (parseStep s a) (parseStep_stateRen a h)
  exact this _ (stateP_init fileRen)

lemma foldl_stateIff (lines : List String)
    (hdev : ∀ l ∈ lines, noDevNull l = true) :
    stateP fileIff (lines.foldl parseStep ParserState.init) := by
  have : ∀ (ls : List String), (∀ l ∈ ls, noDevNull l = true) →
      ∀ (s : ParserState), stateP fileIff s →
      stateP fileIff (ls.foldl parseStep s) := by
    intro ls
    induction ls with
    | nil => exact fun _ s h => h
    | cons a t ih =>
      intro hd s h
      exact ih (fun l hl => hd l (List.mem_cons_of_mem a hl)) (parseStep s a)
        (parseStep_stateIff a (hd a (List.mem_cons_self a t)) h)
  exact this lines hdev _ (stateP_init fileIff)

/-! ## Non-emptiness of flushed hunks (claim C6)

`flush_hunk` pushes the current hunk unconditionally, so a hunk header
with no subsequent content line yields a hunk with an empty `lines`
list.  When every hunk header is immediately followed by a content
line, all flushed hunks are non-empty. -/

/-- A line that reaches the line-classification arm of the parser loop
and pushes a `DiffLine` (it matches none of the header/marker tests of
src/git.rs:241-292 and is not the no-newline marker). -/
def isContentLine (l : String) : Bool :=
  !startsWithStr "diff --git " l && !startsWithStr "--- /dev/null" l &&
  !startsWithStr "+++ /dev/null" l && !startsWithStr "--- " l &&
  !startsWithStr "+++ " l && !startsWithStr "@@ " l &&
  !(l == "\\ No newline at end of file")

def headContent : List String → Bool
  | [] => false
  | b :: _ => isContentLine b

/-- Every `@@ ` hunk-header line is immediately followed by a content
line. -/
def headersFollowedB : List String → Bool
  | [] => true
  | a :: rest => (!startsWithStr "@@ " a || headContent rest) && headersFollowedB rest

def fileNE (f : DiffFile) : Prop := ∀ h ∈ f.hunks, h.lines ≠ []

def filesNE (s : ParserState) : Prop :=
  (∀ f ∈ s.files, fileNE f) ∧ (∀ f, s.current_file = some f → fileNE f)

/-- Loop invariant for claim C6: all flushed hunks are non-empty, and
an empty current hunk (one that was just opened) is about to receive a
content line. -/
def stateNE (s : ParserState) (rest : List String) : Prop :=
  filesNE s ∧
  (∀ h, s.current_hunk = some h → h.lines = [] → headContent rest = true)

lemma flushHunk_filesNE {s : ParserState} (h : filesNE s)
    (hh : ∀ hk, s.current_hunk = some hk → hk.lines ≠ []) :
    filesNE (flushHunk s) ∧ (flushHunk s).current_hunk = none := by
  obtain ⟨h1, h2⟩ := h
  rcases hcf : s.current_file with _ | f <;> rcases hch : s.current_hunk with _ | hk <;>
    simp only [flushHunk, hcf, hch]
  · exact ⟨⟨h1, by simp⟩, trivial⟩
  · exact ⟨⟨h1, by simp⟩, trivial⟩
  · refine ⟨⟨h1, ?_⟩, trivial⟩
    intro f2 hf2
    simp only [Option.some.injEq] at hf2
    subst hf2
    exact h2 f hcf
  · refine ⟨⟨h1, ?_⟩, trivial⟩
    intro f2 hf2
    simp only [Option.some.injEq] at hf2
    subst hf2
    intro hu hmem
    simp only [List.mem_append, List.mem_singleton] at hmem
    rcases hmem with hmem | hmem
    · exact h2 f hcf hu hmem
    · exact hmem ▸ hh hk hch

lemma flushFile_filesNE {s : ParserState} (h : filesNE s) :
    filesNE (flushFile s) ∧ (flushFile s).current_hunk = s.current_hunk := by
  obtain ⟨h1, h2⟩ := h
  rcases hcf : s.current_file with _ | f <;> simp only [flushFile, hcf]
  · exact ⟨⟨h1, h2⟩, trivial⟩
  · refine ⟨⟨?_, by simp⟩, trivial⟩
    intro f2 hmem
    simp only [List.mem_append, List.mem_singleton] at hmem
    rcases hmem with hmem | hmem
    · exact h1 f2 hmem
    · exact hmem ▸ h2 f hcf

lemma parseStep_stateNE {s : ParserState} {line : String} {rest : List String}
    (hhf : headersFollowedB (line :: rest) = true)
    (h : stateNE s (line :: rest)) : stateNE (parseStep s line) rest := by
  obtain ⟨hF, hH⟩ := h
  unfold parseStep
  split_ifs with g1 g2 g3 g4 g5 g6
  · -- diff --git: the line is not a content line, so the current hunk
    -- (if any) is non-empty and may be flushed
    have hne : ∀ hk, s.current_hunk = some hk → hk.lines ≠ [] := by
      intro hk hch hempty
      have := hH hk hch hempty
      simp [headContent, isContentLine, g1] at this
    obtain ⟨hFlH, hChH⟩ := flushHunk_filesNE hF hne
    obtain ⟨⟨h1, h2⟩, hChF⟩ := flushFile_filesNE hFlH
    refine ⟨⟨h1, ?_⟩, ?_⟩
    · intro f2 hf2
      simp only [Option.some.injEq] at hf2
      subst hf2
      intro hu hmem
      rw [newFileOf_hunks] at hmem
      simp at hmem
    · intro hk hch
      rw [hChF, hChH] at hch
      simp at hch
  · -- "--- /dev/null": hunks untouched, current hunk cannot be empty
    obtain ⟨h1, h2⟩ := hF
    rcases hcf : s.current_file with _ | f0 <;> simp only [hcf]
    · refine ⟨⟨h1, h2⟩, ?_⟩
      intro hk hch hempty
      have := hH hk hch hempty
      simp [headContent, isContentLine, g2] at this
    · refine ⟨⟨h1, ?_⟩, ?_⟩
      · intro f hf2
        simp only [Option.some.injEq] at hf2
        subst hf2
        intro hu hmem
        exact h2 f0 hcf hu hmem
      · intro hk hch hempty
        have := hH hk hch hempty
        simp [headContent, isContentLine, g2] at this
  · -- "+++ /dev/null"
    obtain ⟨h1, h2⟩ := hF
    rcases hcf : s.current_file with _ | f0 <;> simp only [hcf]
    · refine ⟨⟨h1, h2⟩, ?_⟩
      intro hk hch hempty
      have := hH hk hch hempty
      simp [headContent, isContentLine, g3] at this
    · refine ⟨⟨h1, ?_⟩, ?_⟩
      · intro f hf2
        simp only [Option.some.injEq] at hf2
        subst hf2
        intro hu hmem
        exact h2 f0 hcf hu hmem
      · intro hk hch hempty
        have := hH hk hch hempty
        simp [headContent, isContentLine, g3] at this
  · -- "--- " / "+++ " skip
    refine ⟨hF, ?_⟩
    intro hk hch hempty
    have := hH hk hch hempty
    rcases g4 with g4 | g4 <;> simp [headContent, isContentLine, g4] at this
  · -- hunk header: a fresh (empty) hunk is opened; the next line is a
    -- content line by hypothesis
    have hne : ∀ hk, s.current_hunk = some hk → hk.lines ≠ [] := by
      intro hk hch hempty
      have := hH hk hch hempty
      simp [headContent, isContentLine, g5] at this
    obtain ⟨⟨h1, h2⟩, hChH⟩ := flushHunk_filesNE hF hne
    have hnext : headContent rest = true := by
      simp only [headersFollowedB, g5, Bool.not_true, Bool.false_or,
        Bool.and_eq_true] at hhf
      exact hhf.1
    rcases hph : parse_hunk_header line with _ | hk <;> simp only [hph]
    · refine ⟨⟨h1, h2⟩, ?_⟩
      intro hk2 hch
      rw [hChH] at hch
      cases hch
    · refine ⟨⟨h1, h2⟩, ?_⟩
      intro hk2 hch hempty
      exact hnext
  · -- content line equal to the no-newline marker
    rcases hch : s.current_hunk with _ | hk
    · simp only [hch]
      refine ⟨hF, ?_⟩
      intro hk2 hch2
      rw [hch] at hch2
      cases hch2
    · simp only [hch]
      rcases hp : stripStr "+" line with _ | c1 <;>
        rcases hm : stripStr "-" line with _ | c2 <;>
        rcases hsp : stripStr " " line with _ | c3 <;>
        simp only [hp, hm, hsp] <;>
        refine ⟨hF, ?_⟩ <;> intro hk2 hch2 hempty
      · -- state unchanged; an empty current hunk is impossible
        rw [hch] at hch2
        simp only [Option.some.injEq] at hch2
        have hempty2 : hk.lines = [] := by rw [hch2]; exact hempty
        have := hH hk hch hempty2
        simp [headContent, isContentLine, g6] at this
      all_goals
        simp only [Option.some.injEq] at hch2
        subst hch2
        simp [pushHunkLine] at hempty
  · -- ordinary content line: the pushed line keeps the hunk non-empty
    rcases hch : s.current_hunk with _ | hk
    · simp only [hch]
      refine ⟨hF, ?_⟩
      intro hk2 hch2
      rw [hch] at hch2
      cases hch2
    · simp only [hch]
      rcases hp : stripStr "+" line with _ | c1 <;>
        rcases hm : stripStr "-" line with _ | c2 <;>
        rcases hsp : stripStr " " line with _ | c3 <;>
        simp only [hp, hm, hsp] <;>
        refine ⟨hF, ?_⟩ <;> intro hk2 hch2 hempty <;>
        simp only [Option.some.injEq] at hch2 <;> subst hch2 <;>
        simp [pushHunkLine] at hempty

lemma headersFollowedB_tail {a : String} {t : List String}
    (h : headersFollowedB (a :: t) = true) : headersFollowedB t = true := by
  simp only [headersFollowedB, Bool.and_eq_true] at h
  exact h.2

lemma foldl_stateNE (lines : List String)
    (hhf : headersFollowedB lines = true) :
    stateNE (lines.foldl parseStep ParserState.init) [] := by
  have main : ∀ (ls : List String), headersFollowedB ls = true →
      ∀ (s : ParserState), stateNE s ls → stateNE (ls.foldl parseStep s) [] := by
    intro ls
    induction ls with
    | nil => exact fun _ s h => h
    | cons a t ih =>
      intro hf s h
      exact ih (headersFollowedB_tail hf) (parseStep s a) (parseStep_stateNE hf h)
  refine main lines hhf _ ⟨⟨by simp [ParserState.init], by simp [ParserState.init]⟩, ?_⟩
  intro hk hch
  simp [ParserState.init] at hch

lemma parseFinish_NE {s : ParserState} (h : stateNE s []) :
    ∀ f ∈ parseFinish s, fileNE f := by
  obtain ⟨hF, hH⟩ := h
  have hne : ∀ hk, s.current_hunk = some hk → hk.lines ≠ [] := by
    intro hk hch hempty
    have := hH hk hch hempty
    simp [headContent] at this
  obtain ⟨⟨h1, h2⟩, -⟩ := flushHunk_filesNE hF hne
  unfold parseFinish
  intro f hmem
  rcases hcf : (flushHunk s).current_file with _ | f0 <;> simp only [hcf] at hmem
  · exact h1 f hmem
  · simp only [List.mem_append, List.mem_singleton] at hmem
    rcases hmem with hmem | hmem
    · exact h1 f hmem
    · exact hmem ▸ h2 f0 hcf

/-! ## Claims C3, C6, C7 about the diff parser -/

/-- Claim C7: for every input text, every `DiffLine` in every hunk of every
`DiffFile` returned by `parse_unified_diff` satisfies: kind `Added`
implies `new_lineno` is `Some` and `old_lineno` is `None`; kind
`Removed` implies `old_lineno` is `Some` and `new_lineno` is `None`;
kind `Context` implies both are `Some`. -/
theorem parse_line_numbering_invariant (input : String) :
    ∀ f ∈ parse_unified_diff input, ∀ h ∈ f.hunks, ∀ l ∈ h.lines,
      (l.kind = LineKind.Added → l.new_lineno.isSome = true ∧ l.old_lineno = none) ∧
      (l.kind = LineKind.Removed → l.old_lineno.isSome = true ∧ l.new_lineno = none) ∧
      (l.kind = LineKind.Context → l.old_lineno.isSome = true ∧ l.new_lineno.isSome = true) := by
  intro f hf h hh l hl
  have hWF : lineWF l :=
    parseFinish_WF (foldl_parseStep_WF (rustLines input)) f hf h hh l hl
  refine ⟨?_, ?_, ?_⟩ <;> intro hk <;>
    simp only [lineWF, hk] at hWF
  · exact ⟨hWF.2, hWF.1⟩
  · exact hWF
  · exact hWF

/-- Witness for C7 at a concrete three-line hunk. -/
theorem parse_line_numbering_invariant_witness :
    (⟨LineKind.Added, "add", none, some 2⟩ : DiffLine).new_lineno.isSome = true ∧
    (⟨LineKind.Added, "add", none, some 2⟩ : DiffLine).old_lineno = none :=
  (parse_line_numbering_invariant "diff --git a/m b/m\n@@ -1,2 +1,2 @@\n ctx\n-del\n+add"
    ⟨"m", none, FileStatus.Modified,
      [⟨1, 2, 1, 2, "@@ -1,2 +1,2 @@",
        [⟨LineKind.Context, "ctx", some 1, some 1⟩,
         ⟨LineKind.Removed, "del", some 2, none⟩,
         ⟨LineKind.Added, "add", none, some 2⟩]⟩]⟩
    (by decide)
    ⟨1, 2, 1, 2, "@@ -1,2 +1,2 @@",
      [⟨LineKind.Context, "ctx", some 1, some 1⟩,
       ⟨LineKind.Removed, "del", some 2, none⟩,
       ⟨LineKind.Added, "add", none, some 2⟩]⟩
    (by decide)
    ⟨LineKind.Added, "add", none, some 2⟩
    (by decide)).1 rfl

/-- Claim C3, amended: `status = Renamed` always implies `old_path.is_some()`;
the full equivalence `old_path.is_some() ⇔ status = Renamed` holds for
every input none of whose lines carries a `--- /dev/null` or
`+++ /dev/null` marker (such a marker overwrites the status of a
rename-header file while `old_path` is retained). -/
theorem parse_old_path_renamed (input : String) :
    (∀ f ∈ parse_unified_diff input,
      f.status = FileStatus.Renamed → f.old_path.isSome = true) ∧
    ((∀ l ∈ rustLines input, noDevNull l = true) →
      ∀ f ∈ parse_unified_diff input,
        (f.old_path.isSome = true ↔ f.status = FileStatus.Renamed)) := by
  constructor
  · intro f hf
    exact parseFinish_stateP (fun _ _ hP => hP) (foldl_stateRen (rustLines input)) f hf
  · intro hdev f hf
    exact parseFinish_stateP (fun _ _ hP => hP) (foldl_stateIff (rustLines input) hdev) f hf

/-- Witness for C3 at a concrete rename diff without /dev/null lines. -/
theorem parse_old_path_renamed_witness :
    (⟨"new_name.rs", some "old_name.rs", FileStatus.Renamed, []⟩ : DiffFile).old_path.isSome = true ↔
    (⟨"new_name.rs", some "old_name.rs", FileStatus.Renamed, []⟩ : DiffFile).status = FileStatus.Renamed :=
  (parse_old_path_renamed "diff --git a/old_name.rs b/new_name.rs").2
    (by decide)
    ⟨"new_name.rs", some "old_name.rs", FileStatus.Renamed, []⟩
    (by decide)

/-- Counterexample to C3 as stated: a `--- /dev/null` line after a
rename-style `diff --git a/x b/y` header overwrites the status to
`Added` while `old_path` stays `Some "x"`. -/
theorem parse_old_path_renamed_cex :
    ¬ (∀ input : String, ∀ f ∈ parse_unified_diff input,
        (f.old_path.isSome = true ↔ f.status = FileStatus.Renamed)) := by
  intro hAll
  have hmem : (⟨"y", some "x", FileStatus.Added, []⟩ : DiffFile) ∈
      parse_unified_diff "diff --git a/x b/y\n--- /dev/null" := by decide
  have h := hAll "diff --git a/x b/y\n--- /dev/null" _ hmem
  have : FileStatus.Added = FileStatus.Renamed := h.mp rfl
  cases this

/-- Claim C6, amended: every hunk flushed by the parser has a non-empty
`lines` list provided every `@@ ` hunk-header line of the input is
immediately followed by a content line; in general a hunk header with
no subsequent content lines produces a hunk whose `lines` list is
empty. -/
theorem parse_hunks_nonempty (input : String)
    (hhf : headersFollowedB (rustLines input) = true) :
    ∀ f ∈ parse_unified_diff input, ∀ h ∈ f.hunks, h.lines ≠ [] := by
  intro f hf h hh
  exact parseFinish_NE (foldl_stateNE (rustLines input) hhf) f hf h hh

/-- Witness for C6 on a hunk header followed by a context line. -/
theorem parse_hunks_nonempty_witness :
    ([⟨LineKind.Context, "ctx", some 1, some 1⟩] : List DiffLine) ≠ [] :=
  parse_hunks_nonempty "diff --git a/a b/a\n@@ -1 +1 @@\n ctx"
    (by decide)
    ⟨"a", none, FileStatus.Modified,
      [⟨1, 1, 1, 1, "@@ -1 +1 @@", [⟨LineKind.Context, "ctx", some 1, some 1⟩]⟩]⟩
    (by decide)
    ⟨1, 1, 1, 1, "@@ -1 +1 @@", [⟨LineKind.Context, "ctx", some 1, some 1⟩]⟩
    (by decide)

/-- Counterexample to C6 as stated: a hunk header with no subsequent
content line is still flushed, with an empty `lines` list. -/
theorem parse_hunks_nonempty_cex :
    ¬ (∀ input : String, ∀ f ∈ parse_unified_diff input,
        ∀ h ∈ f.hunks, h.lines ≠ []) := by
  intro hAll
  exact hAll "diff --git a/a b/a\n@@ -1 +1 @@"
    ⟨"a", none, FileStatus.Modified, [⟨1, 1, 1, 1, "@@ -1 +1 @@", []⟩]⟩
    (by decide)
    ⟨1, 1, 1, 1, "@@ -1 +1 @@", []⟩
    (by decide)
    rfl

/-! ## Idempotence of the range merger (claim C5) -/

/-- Well-separated range lists: each range is proper (`start ≤ end`) and
consecutive ranges are neither overlapping nor adjacent. This is the
shape of `merge_overlapping_ranges` output on sorted input. -/
def SepRanges : List (Nat × Nat) → Prop
  | [] => True
  | [r] => r.1 ≤ r.2
  | r :: s :: t => r.1 ≤ r.2 ∧ r.2 + 1 < s.1 ∧ SepRanges (s :: t)

lemma mergeLoop_head (rest : List (Nat × Nat)) :
    ∀ c1 c2 : Nat, ∃ e2 tail, mergeLoop (c1, c2) rest = (c1, e2) :: tail ∧ c2 ≤ e2 := by
  induction rest with
  | nil => exact fun c1 c2 => ⟨c2, [], rfl, le_refl c2⟩
  | cons r rest ih =>
    intro c1 c2
    rcases r with ⟨s, e⟩
    by_cases hcm : s ≤ c2 + 1
    · obtain ⟨e2, tail, heq, hle⟩ := ih c1 (max c2 e)
      exact ⟨e2, tail, by simp [mergeLoop, hcm, heq], le_trans (le_max_left c2 e) hle⟩
    · exact ⟨c2, mergeLoop (s, e) rest, by simp [mergeLoop, hcm], le_refl c2⟩

lemma mergeLoop_sep (rest : List (Nat × Nat)) :
    ∀ c1 c2 : Nat, c1 ≤ c2 →
    (∀ r ∈ rest, r.1 ≤ r.2) →
    List.Pairwise startLE rest →
    SepRanges (mergeLoop (c1, c2) rest) := by
  induction rest with
  | nil => exact fun c1 c2 h _ _ => h
  | cons r rest ih =>
    intro c1 c2 hc hWF hPW
    rcases r with ⟨s, e⟩
    rcases List.pairwise_cons.mp hPW with ⟨hhead, htail⟩
    by_cases hcm : s ≤ c2 + 1
    · simp only [mergeLoop]
      rw [if_pos hcm]
      exact ih c1 (max c2 e) (le_trans hc (le_max_left c2 e))
        (fun r hr => hWF r (List.mem_cons_of_mem _ hr)) htail
    · simp only [mergeLoop]
      rw [if_neg hcm]
      have hsep : SepRanges (mergeLoop (s, e) rest) :=
        ih s e (hWF (s, e) (List.mem_cons_self _ _))
          (fun r hr => hWF r (List.mem_cons_of_mem _ hr)) htail
      obtain ⟨e2, tail, heq, -⟩ := mergeLoop_head rest s e
      rw [heq] at hsep ⊢
      exact ⟨hc, by omega, hsep⟩

lemma mergeLoop_of_sep (rest : List (Nat × Nat)) :
    ∀ c : Nat × Nat, SepRanges (c :: rest) → mergeLoop c rest = c :: rest := by
  induction rest with
  | nil => exact fun c _ => rfl
  | cons r rest ih =>
    intro c hsep
    rcases r with ⟨s, e⟩
    obtain ⟨h1, h2, h3⟩ := hsep
    simp only [mergeLoop]
    rw [if_neg (by omega)]
    rw [ih (s, e) h3]

lemma sep_head_le (rest : List (Nat × Nat)) :
    ∀ c : Nat × Nat, SepRanges (c :: rest) → ∀ x ∈ rest, c.1 ≤ x.1 := by
  induction rest with
  | nil => intro c _ x hx; cases hx
  | cons r rest ih =>
    intro c hsep x hx
    obtain ⟨h1, h2, h3⟩ := hsep
    rcases List.mem_cons.mp hx with hx | hx
    · subst hx; omega
    · have := ih r h3 x hx
      omega

lemma sep_pairwise : ∀ l : List (Nat × Nat), SepRanges l → List.Pairwise startLE l := by
  intro l
  induction l with
  | nil => exact fun _ => List.Pairwise.nil
  | cons c rest ih =>
    intro hsep
    refine List.pairwise_cons.mpr ⟨sep_head_le rest c hsep, ?_⟩
    apply ih
    rcases rest with _ | ⟨r, rest⟩
    · trivial
    · exact hsep.2.2

lemma sep_merge_fixed {l : List (Nat × Nat)} (hsep : SepRanges l) :
    merge_overlapping_ranges l = l := by
  rcases l with _ | ⟨c, rest⟩
  · rfl
  · exact mergeLoop_of_sep rest c hsep

lemma mergeRanges_sep {l : List (Nat × Nat)} (hWF : ∀ r ∈ l, r.1 ≤ r.2) :
    SepRanges (mergeRanges l) := by
  unfold mergeRanges
  have hperm := List.perm_insertionSort startLE l
  have hWF2 : ∀ r ∈ l.insertionSort startLE, r.1 ≤ r.2 :=
    fun r hr => hWF r (hperm.mem_iff.mp hr)
  have hsorted : List.Sorted startLE (l.insertionSort startLE) :=
    List.sorted_insertionSort startLE l
  rcases hl : l.insertionSort startLE with _ | ⟨c, rest⟩
  · trivial
  · rw [hl] at hWF2 hsorted
    rcases List.sorted_cons.mp hsorted with ⟨hhead, htail⟩
    rcases c with ⟨c1, c2⟩
    exact mergeLoop_sep rest c1 c2 (hWF2 (c1, c2) (List.mem_cons_self _ _))
      (fun r hr => hWF2 r (List.mem_cons_of_mem _ hr)) htail

/-- Claim C5: the range-merge operation of `compute_merged_ranges` (stable
sort by start, then a single merging pass that combines overlapping or
adjacent ranges) is idempotent on lists of proper ranges, and produces
the two concrete outputs named by the specification. -/
theorem mergeRanges_idempotent :
    (∀ l : List (Nat × Nat), (∀ r ∈ l, r.1 ≤ r.2) →
      mergeRanges (mergeRanges l) = mergeRanges l) ∧
    mergeRanges [(1, 5), (4, 8), (15, 20)] = [(1, 8), (15, 20)] ∧
    mergeRanges [(1, 5), (6, 10)] = [(1, 10)] := by
  refine ⟨?_, by decide, by decide⟩
  intro l hWF
  have hsep := mergeRanges_sep hWF
  have hsorted : List.Sorted startLE (mergeRanges l) := sep_pairwise _ hsep
  show merge_overlapping_ranges ((mergeRanges l).insertionSort startLE) = mergeRanges l
  rw [List.Sorted.insertionSort_eq hsorted]
  exact sep_merge_fixed hsep

/-- Witness for C5 at a concrete overlapping list. -/
theorem mergeRanges_idempotent_witness :
    ((1, 5) : Nat × Nat).1 ≤ ((1, 5) : Nat × Nat).2 ∧
    mergeRanges (mergeRanges [(1, 5), (4, 8), (15, 20)]) =
      mergeRanges [(1, 5), (4, 8), (15, 20)] :=
  ⟨by decide,
   mergeRanges_idempotent.1 [(1, 5), (4, 8), (15, 20)] (by decide)⟩

/-! ## Slicer (`src/slicer.rs`)

File-system reads are abstracted by an injected
`read : String → Except String String` (the contents of
`std::fs::read_to_string` keyed by path, resolving
`options.root.join(&file.path)`); a result that does not depend on
`read` is one that performs no read. -/

/-- `SliceOptions` (src/slicer.rs:24-31); `root` is a path string. -/
structure SliceOptions where
  context_lines : Nat
  hunks_only : Bool
  root : String
deriving Repr

/-- `Snippet` (src/slicer.rs:35-46). -/
structure Snippet where
  file_path : String
  start_line : Nat
  end_line : Nat
  content : String
  reason : String
deriving DecidableEq, Repr

/-- `status_reason` (src/slicer.rs:229-236). -/
def status_reason : FileStatus → String
  | FileStatus.Added => "added"
  | FileStatus.Modified => "modified in diff"
  | FileStatus.Deleted => "deleted"
  | FileStatus.Renamed => "renamed"

/-- The `+`/`-`/` ` marker restored in front of a hunk line
(src/slicer.rs:86-90). -/
def lineMarkerOf : LineKind → String
  | LineKind.Added => "+"
  | LineKind.Removed => "-"
  | LineKind.Context => " "

/-- `slice_hunks_only` (src/slicer.rs:77-110): one snippet per hunk,
containing the raw hunk lines with their markers restored. -/
def slice_hunks_only (file : DiffFile) : List Snippet :=
  file.hunks.enum.map fun p =>
    { file_path := file.path,
      start_line := p.2.new_start,
      end_line := max (p.2.new_start + p.2.new_count) 1,
      content := String.intercalate "\n"
        (p.2.lines.map fun l => lineMarkerOf l.kind ++ l.content),
      reason := status_reason file.status ++ " (hunk " ++ toString (p.1 + 1) ++
        "/" ++ toString file.hunks.length ++ ")" }

/-- The per-hunk expanded range of `compute_merged_ranges`
(src/slicer.rs:172-197). -/
def hunkRange (context_lines total_lines : Nat) (h : DiffHunk) : Nat × Nat :=
  let changed_lines : List Nat :=
    (h.lines.filter fun l =>
       l.kind == LineKind.Added || l.kind == LineKind.Removed).filterMap
      fun l => l.new_lineno.or l.old_lineno
  let cse : Nat × Nat :=
    if changed_lines.isEmpty then (h.new_start, h.new_start + (h.new_count - 1))
    else ((changed_lines.min?).getD 0, (changed_lines.max?).getD 0)
  (max (cse.1 - context_lines) 1, min (cse.2 + context_lines) total_lines)

/-- `compute_merged_ranges` (src/slicer.rs:167-201). -/
def compute_merged_ranges (hunks : List DiffHunk)
    (context_lines total_lines : Nat) : List (Nat × Nat) :=
  merge_overlapping_ranges
    ((hunks.map (hunkRange context_lines total_lines)).insertionSort startLE)

/-- `slice_with_context` (src/slicer.rs:117-156). -/
def slice_with_context (read : String → Except String String)
    (file : DiffFile) (options : SliceOptions) : Except String (List Snippet) :=
  if file.status = FileStatus.Deleted then Except.ok (slice_hunks_only file)
  else
    match read (options.root ++ "/" ++ file.path) with
    | Except.error e => Except.error e
    | Except.ok content =>
      let file_lines := rustLines content
      let total_lines := file_lines.length
      if total_lines = 0 then Except.ok []
      else
        Except.ok ((compute_merged_ranges file.hunks options.context_lines total_lines).filterMap
          fun r =>
            let clamped_start := max r.1 1
            let clamped_end := min r.2 total_lines
            if clamped_start > clamped_end then none
            else some
              { file_path := file.path,
                start_line := clamped_start,
                end_line := clamped_end,
                content := String.intercalate "\n"
                  ((file_lines.drop (clamped_start - 1)).take (clamped_end - (clamped_start - 1))),
                reason := status_reason file.status })

/-- The per-file dispatch of the loop in `slice_diff_hunks`
(src/slicer.rs:61-68). -/
def sliceFile (read : String → Except String String)
    (options : SliceOptions) (file : DiffFile) : Except String (List Snippet) :=
  if options.hunks_only then Except.ok (slice_hunks_only file)
  else slice_with_context read file options

/-- `slice_diff_hunks` (src/slicer.rs:58-71): per-file snippets are
concatenated; the first failing file aborts the run. -/
def slice_diff_hunks (read : String → Except String String)
    (diff_files : List DiffFile) (options : SliceOptions) :
    Except String (List Snippet) :=
  (diff_files.mapM (sliceFile read options)).map List.flatten

/-- Claim C9: a `Deleted` file always slices successfully into exactly one
snippet per hunk — whatever the `hunks_only` flag and whatever the
file-reading oracle returns (no read is performed) — and each
snippet's content is the hunk's lines re-prefixed with `+`/`-`/` ` and
joined with newlines. -/
theorem deleted_file_slicing (read : String → Except String String)
    (options : SliceOptions) (file : DiffFile)
    (hdel : file.status = FileStatus.Deleted) :
    sliceFile read options file = Except.ok (slice_hunks_only file) ∧
    (slice_hunks_only file).length = file.hunks.length ∧
    (∀ i (hi : i < file.hunks.length) (hi2 : i < (slice_hunks_only file).length),
      ((slice_hunks_only file).get ⟨i, hi2⟩).content =
        String.intercalate "\n"
          ((file.hunks.get ⟨i, hi⟩).lines.map fun l => lineMarkerOf l.kind ++ l.content)) := by
  refine ⟨?_, ?_, ?_⟩
  · unfold sliceFile slice_with_context
    rw [if_pos hdel]
    split_ifs <;> rfl
  · simp [slice_hunks_only]
  · intro i hi hi2
    simp [slice_hunks_only, List.getElem_map, List.getElem_enum]

/-- Witness for C9 at a concrete one-hunk deleted file. -/
theorem deleted_file_slicing_witness :
    sliceFile (fun _ => Except.error "disk must not be touched")
      ⟨3, false, "root"⟩
      ⟨"gone.rs", none, FileStatus.Deleted,
        [⟨1, 2, 0, 0, "@@ -1,2 +0,0 @@",
          [⟨LineKind.Removed, "old line 1", some 1, none⟩,
           ⟨LineKind.Removed, "old line 2", some 2, none⟩]⟩]⟩ =
      Except.ok (slice_hunks_only
        ⟨"gone.rs", none, FileStatus.Deleted,
          [⟨1, 2, 0, 0, "@@ -1,2 +0,0 @@",
            [⟨LineKind.Removed, "old line 1", some 1, none⟩,
             ⟨LineKind.Removed, "old line 2", some 2, none⟩]⟩]⟩) :=
  (deleted_file_slicing (fun _ => Except.error "disk must not be touched")
    ⟨3, false, "root"⟩
    ⟨"gone.rs", none, FileStatus.Deleted,
      [⟨1, 2, 0, 0, "@@ -1,2 +0,0 @@",
        [⟨LineKind.Removed, "old line 1", some 1, none⟩,
         ⟨LineKind.Removed, "old line 2", some 2, none⟩]⟩]⟩
    rfl).1

/-! ## Bundle sections, token estimation and the greedy packer
(`src/output.rs`, `src/tokens.rs`, `src/commands/pack.rs`) -/

/-- `BundleSection` (src/output.rs:59-68). -/
structure BundleSection where
  file_path : String
  language : String
  content : String
  reason : String
deriving DecidableEq, Repr

/-- `ManifestEntry` (src/manifest.rs:57-76); the `f64` score is
modelled by `ℚ` (only equality and the constant `0.0` occur here). -/
structure ManifestEntry where
  file_path : String
  start_line : Nat
  end_line : Nat
  token_estimate : Nat
  char_count : Nat
  reason : String
  score : ℚ
  included : Bool
  language : String
deriving DecidableEq, Repr

/-- Rust `hay.contains(needle)` (substring test). -/
def strContains (hay needle : String) : Bool :=
  (splitFirstAux needle.toList hay.toList).isSome

/-- `CharEstimator::estimate` for the default GPT-4 family
(src/tokens.rs:75-82 with `chars_per_token = 4.0`):
`ceil(byte_length / 4)`, `0` for empty text.  The `f64` division and
ceil are exact for every realistic length, so the `Nat` ceiling
division is a faithful model. -/
def charEstimateGpt4 (text : String) : Nat :=
  if text.utf8ByteSize = 0 then 0 else (text.utf8ByteSize + 3) / 4

/-- `make_entry` (src/commands/pack.rs:241-258). -/
def make_entry (sec : BundleSection) (token_estimate : Nat)
    (included : Bool) (reason : String) : ManifestEntry :=
  { file_path := sec.file_path,
    start_line := 0,
    end_line := 0,
    token_estimate,
    char_count := sec.content.utf8ByteSize,
    reason,
    score := 0,
    included,
    language := sec.language }

/-- The second loop of `greedy_pack` (src/commands/pack.rs:215-235):
optional sections with budget enforcement.  State: running token
total, included sections, manifest entries. -/
def packOptional (est : String → Nat) (budget : Option Nat) :
    List BundleSection → Nat → List BundleSection → List ManifestEntry →
    List BundleSection × List ManifestEntry
  | [], _, included, entries => (included, entries)
  | sec :: rest, tokens_used, included, entries =>
    let token_est := est sec.content
    let is_included : Bool :=
      match budget with
      | none => true
      | some b => if included.isEmpty then true else decide (tokens_used + token_est ≤ b)
    if is_included then
      packOptional est budget rest (tokens_used + token_est) (included ++ [sec])
        (entries ++ [make_entry sec token_est true sec.reason])
    else
      packOptional est budget rest tokens_used included
        (entries ++ [make_entry sec token_est false sec.reason])

/-- Whether a section matches one of the must-include paths
(src/commands/pack.rs:204). -/
def matchesMust (must_paths : List String) (sec : BundleSection) : Bool :=
  must_paths.any fun m => strContains sec.file_path m

/-- `greedy_pack` (src/commands/pack.rs:191-238).  The token estimator
is the injected trait object; `partition` splits into must-include and
optional sections preserving relative order, the must-include loop
adds every matching section unconditionally, then `packOptional`
processes the rest. -/
def greedy_pack (sections : List BundleSection) (est : String → Nat)
    (budget : Option Nat) (must_paths : List String) :
    List BundleSection × List ManifestEntry :=
  let must_sections := sections.filter (matchesMust must_paths)
  let optional_sections := sections.filter fun s => !(matchesMust must_paths s)
  packOptional est budget optional_sections
    ((must_sections.map fun s => est s.content).sum)
    must_sections
    (must_sections.map fun s => make_entry s (est s.content) true "must-include")

lemma packOptional_len_le (est : String → Nat) (budget : Option Nat) :
    ∀ (opts : List BundleSection) (used : Nat) (inc : List BundleSection)
      (ent : List ManifestEntry),
      inc.length ≤ (packOptional est budget opts used inc ent).1.length := by
  intro opts
  induction opts with
  | nil => intro used inc ent; exact le_refl _
  | cons sec rest ih =>
    intro used inc ent
    simp only [packOptional]
    split_ifs <;> exact le_trans (by simp) (ih _ _ _)

/-- Claim C1: for every non-empty candidate list and every budget ≥ 1 (even
one smaller than the first candidate's token estimate), `greedy_pack`
includes at least one section. -/
theorem greedy_pack_includes_one (sections : List BundleSection)
    (est : String → Nat) (b : Nat) (must_paths : List String)
    (hne : sections ≠ []) (hb : 1 ≤ b) :
    1 ≤ (greedy_pack sections est (some b) must_paths).1.length := by
  unfold greedy_pack
  by_cases hmust : sections.filter (matchesMust must_paths) = []
  · -- no must-include section: every section is optional and the first
    -- one is taken by the always-include-one rule
    have hopt : sections.filter (fun s => !(matchesMust must_paths s)) = sections := by
      rw [List.filter_eq_self]
      intro a ha
      have := List.filter_eq_nil_iff.mp hmust a ha
      simpa using this
    rw [hmust, hopt]
    rcases sections with _ | ⟨sec, rest⟩
    · exact absurd rfl hne
    · simp only [packOptional, List.map_nil, List.sum_nil, List.isEmpty_nil,
        if_true]
      calc 1 = ([] ++ [sec] : List BundleSection).length := by simp
        _ ≤ _ := packOptional_len_le est (some b) rest _ _ _
  · -- at least one must-include section is added unconditionally
    have h1 : 1 ≤ (sections.filter (matchesMust must_paths)).length :=
      List.length_pos.mpr hmust
    calc 1 ≤ (sections.filter (matchesMust must_paths)).length := h1
      _ ≤ _ := packOptional_len_le est (some b) _ _ _ _

/-- Witness for C1: a tiny budget still yields one included section. -/
theorem greedy_pack_includes_one_witness :
    ([⟨"src/main.rs", "rust", "fn main() ...", "modified"⟩] : List BundleSection) ≠ [] ∧
    1 ≤ (greedy_pack [⟨"src/main.rs", "rust", "fn main() ...", "modified"⟩]
          charEstimateGpt4 (some 1) []).1.length :=
  ⟨by decide,
   greedy_pack_includes_one [⟨"src/main.rs", "rust", "fn main() ...", "modified"⟩]
     charEstimateGpt4 1 [] (by decide) (by decide)⟩

/-! ## Budget monotonicity (claim C2)

Greedy packing is not monotone in the budget: a larger budget can let
an early expensive section in, crowding out several cheaper later ones.
Monotonicity does hold when every section has the same token
estimate. -/

lemma packOptional_mono (est : String → Nat) (t b1 b2 : Nat) (hb : b1 ≤ b2) :
    ∀ (opts : List BundleSection), (∀ s ∈ opts, est s.content = t) →
    ∀ (u1 u2 : Nat) (inc1 inc2 : List BundleSection)
      (ent1 ent2 : List ManifestEntry),
    inc1.length ≤ inc2.length →
    u2 + inc1.length * t = u1 + inc2.length * t →
    (inc1 = [] ↔ inc2 = []) →
    (packOptional est (some b1) opts u1 inc1 ent1).1.length ≤
      (packOptional est (some b2) opts u2 inc2 ent2).1.length := by
  intro opts
  induction opts with
  | nil =>
    intro _ u1 u2 inc1 inc2 ent1 ent2 hlen _ _
    simpa [packOptional] using hlen
  | cons sec rest ih =>
    intro ht u1 u2 inc1 inc2 ent1 ent2 hlen hu hiff
    have hsec : est sec.content = t := ht sec (List.mem_cons_self _ _)
    have htrest : ∀ s ∈ rest, est s.content = t :=
      fun s hs => ht s (List.mem_cons_of_mem _ hs)
    simp only [packOptional, hsec]
    by_cases he1 : inc1 = []
    · -- both runs have empty inclusion lists, hence identical state
      have he2 : inc2 = [] := hiff.mp he1
      subst he1
      subst he2
      have hu0 : u1 = u2 := by simpa using hu.symm
      subst hu0
      simp only [List.isEmpty_nil, if_true]
      refine ih htrest _ _ _ _ _ _ (le_refl _) (by ring) (by simp)
    · have he2 : inc2 ≠ [] := fun h => he1 (hiff.mpr h)
      have hne1 : inc1.isEmpty = false := by simpa [List.isEmpty_iff] using he1
      have hne2 : inc2.isEmpty = false := by simpa [List.isEmpty_iff] using he2
      simp only [hne1, hne2, Bool.false_eq_true, if_false]
      by_cases hd1 : u1 + t ≤ b1 <;> by_cases hd2 : u2 + t ≤ b2
      · -- both include
        simp only [decide_eq_true_eq, hd1, hd2, if_true]
        refine ih htrest _ _ _ _ _ _ (by simpa using hlen) ?_ (by simp)
        simp only [List.length_append, List.length_singleton, Nat.succ_mul,
          Nat.add_mul, Nat.one_mul]
        omega
      · -- run 1 includes, run 2 rejects: run 2 must already be ahead
        have hlt : inc1.length < inc2.length := by
          have hults : u1 < u2 := by omega
          have hmul : inc1.length * t < inc2.length * t := by omega
          exact lt_of_mul_lt_mul_right hmul (Nat.zero_le t)
        simp only [decide_eq_true_eq, hd1, hd2, if_true, if_false]
        refine ih htrest _ _ _ _ _ _ (by simpa using hlt) ?_
          (by simp [he2])
        simp only [List.length_append, List.length_singleton, Nat.succ_mul]
        omega
      · -- run 1 rejects, run 2 includes
        simp only [decide_eq_true_eq, hd1, hd2, if_true, if_false]
        refine ih htrest _ _ _ _ _ _ (by simp; omega) ?_ (by simp [he1])
        simp only [List.length_append, List.length_singleton, Nat.succ_mul]
        omega
      · -- both reject
        simp only [decide_eq_true_eq, hd1, hd2, if_false]
        exact ih htrest _ _ _ _ _ _ hlen hu hiff

/-- Claim C2, amended: holding the candidate list, the token estimator and
the must/drop sets fixed, and assuming all candidates carry the same
token estimate, a larger budget never yields fewer included
candidates.  (Without the equal-estimate assumption the statement is
false; see the counterexample.) -/
theorem greedy_pack_budget_monotone_uniform (sections : List BundleSection)
    (est : String → Nat) (must_paths : List String) (t b1 b2 : Nat)
    (hb : b1 ≤ b2) (ht : ∀ s ∈ sections, est s.content = t) :
    (greedy_pack sections est (some b1) must_paths).1.length ≤
      (greedy_pack sections est (some b2) must_paths).1.length := by
  unfold greedy_pack
  refine packOptional_mono est t b1 b2 hb _ ?_ _ _ _ _ _ _ (le_refl _) rfl Iff.rfl
  intro s hs
  exact ht s (List.mem_filter.mp hs).1

/-- Witness for C2 (amended) at a concrete uniform-estimate list. -/
theorem greedy_pack_budget_monotone_uniform_witness :
    (3 : Nat) ≤ 7 ∧
    (greedy_pack [⟨"a.rs", "rust", "abcdefgh", "m"⟩, ⟨"b.rs", "rust", "ijklmnop", "m"⟩]
        charEstimateGpt4 (some 3) []).1.length ≤
      (greedy_pack [⟨"a.rs", "rust", "abcdefgh", "m"⟩, ⟨"b.rs", "rust", "ijklmnop", "m"⟩]
        charEstimateGpt4 (some 7) []).1.length :=
  ⟨by decide,
   greedy_pack_budget_monotone_uniform
     [⟨"a.rs", "rust", "abcdefgh", "m"⟩, ⟨"b.rs", "rust", "ijklmnop", "m"⟩]
     charEstimateGpt4 [] 2 3 7 (by decide) (by decide)⟩

/-- Counterexample to C2 as stated: with section token estimates
`[5, 10, 1, 1, 1, 1]` (the default GPT-4 character estimator applied
to contents of 20, 40, 4, 4, 4, 4 bytes), budget 9 includes five
sections but budget 15 includes only two. -/
theorem greedy_pack_budget_monotone_cex :
    ¬ (∀ (sections : List BundleSection) (est : String → Nat)
        (must_paths : List String) (b1 b2 : Nat), b1 ≤ b2 →
        (greedy_pack sections est (some b1) must_paths).1.length ≤
          (greedy_pack sections est (some b2) must_paths).1.length) := by
  intro hAll
  have h := hAll
    [⟨"s1", "rust", "aaaaaaaaaaaaaaaaaaaa", "m"⟩,
     ⟨"s2", "rust", "aaaaaaaaaaaaaaaaaaaaaaaaaaaaaaaaaaaaaaaa", "m"⟩,
     ⟨"s3", "rust", "aaaa", "m"⟩,
     ⟨"s4", "rust", "bbbb", "m"⟩,
     ⟨"s5", "rust", "cccc", "m"⟩,
     ⟨"s6", "rust", "dddd", "m"⟩]
    charEstimateGpt4 [] 9 15 (by decide)
  exact absurd h (by decide)

/-! ## Ranker (`src/ranker.rs`)

Scores are `f64` in the source; they are modelled by `ℝ`.  Every
operation the source performs on them (division of equal finite
operands, `ln 1.0`, multiplication by `1.0`, comparison) is exact in
double precision, so the real-number model is faithful on the
properties stated here. -/

/-- `SignalScores` (src/ranker.rs:20-31). -/
structure SignalScores where
  text : ℝ
  diff : ℝ
  recency : ℝ
  proximity : ℝ
  test : ℝ

/-- `RankingWeights` (src/config.rs:24-30). -/
structure RankingWeights where
  text : ℝ
  diff : ℝ
  recency : ℝ
  proximity : ℝ
  test : ℝ

/-- `ScoredSnippet` (src/ranker.rs:47-54); the Rust field `section` is
renamed `sec` (`section` is a Lean keyword). -/
structure ScoredSnippet where
  sec : BundleSection
  score : ℝ
  signals : SignalScores

/-- `text_score` (src/ranker.rs:110-125).  Note the source divides
`total_sections` by itself inside the logarithm, so the idf factor is
the constant `ln 1 + 1 = 1`. -/
noncomputable def text_score (match_count total_matches total_sections : Nat) : ℝ :=
  if total_matches = 0 ∨ total_sections = 0 then 0
  else
    (match_count : ℝ) / (total_matches : ℝ) *
      (Real.log ((total_sections : ℝ) / max (total_sections : ℝ) 1) + 1)

/-- `weighted_score` (src/ranker.rs:128-134). -/
def weighted_score (signals : SignalScores) (weights : RankingWeights) : ℝ :=
  signals.text * weights.text + signals.diff * weights.diff +
    signals.recency * weights.recency + signals.proximity * weights.proximity +
    signals.test * weights.test

/-- The per-candidate scoring closure of `rank_snippets`
(src/ranker.rs:72-90): only the `text` signal is fed; the other four
are zero. -/
noncomputable def mkScored (total_matches total_sections : Nat)
    (weights : RankingWeights) (sec : BundleSection) (count : Nat) : ScoredSnippet :=
  let signals : SignalScores :=
    ⟨text_score count total_matches total_sections, 0, 0, 0, 0⟩
  ⟨sec, weighted_score signals weights, signals⟩

/-- The comparator of `scored.sort_by` (src/ranker.rs:94-100): score
descending, ties broken by file path then reason ascending.
`partial_cmp.unwrap_or(Equal)` on finite doubles is the total order
comparison. -/
noncomputable def cmpScored (a b : ScoredSnippet) : Ordering :=
  (if b.score < a.score then Ordering.lt
   else if b.score = a.score then Ordering.eq
   else Ordering.gt).then
    ((compare a.sec.file_path b.sec.file_path).then
      (compare a.sec.reason b.sec.reason))

/-- Rust `sort_by` is a stable sort ordered by the comparator;
insertion sort with the relation "does not compare greater" models
it. -/
noncomputable def sortScored (l : List ScoredSnippet) : List ScoredSnippet :=
  List.insertionSort (fun a b => cmpScored a b ≠ Ordering.gt) l

/-- `rank_snippets` (src/ranker.rs:65-103): `zip` truncates to the
shorter of `sections` and `match_counts`, while the term-frequency
denominator `total_matches` sums the whole `match_counts` slice. -/
noncomputable def rank_snippets (sections : List BundleSection)
    (match_counts : List Nat) (weights : RankingWeights) : List ScoredSnippet :=
  sortScored
    (List.zipWith (mkScored match_counts.sum sections.length weights)
      sections match_counts)

/-- Claim C4: with positive totals, `text_score` is exactly the
term-frequency proportion `c / T` — the idf factor is constantly 1 —
and it is 0 whenever either total is zero. -/
theorem text_score_spec (c T S : Nat) :
    (0 < T → 0 < S → text_score c T S = (c : ℝ) / (T : ℝ)) ∧
    (T = 0 ∨ S = 0 → text_score c T S = 0) := by
  constructor
  · intro hT hS
    unfold text_score
    rw [if_neg (by omega)]
    have hmax : max (S : ℝ) 1 = (S : ℝ) := by
      rw [max_eq_left]
      exact_mod_cast hS
    have hSne : (S : ℝ) ≠ 0 := by
      exact_mod_cast Nat.pos_iff_ne_zero.mp hS
    rw [hmax, div_self hSne, Real.log_one]
    ring
  · intro h
    unfold text_score
    rw [if_pos h]

/-- Witness for C4 at `c = 1, T = 2, S = 3`. -/
theorem text_score_spec_witness :
    (0 : Nat) < 2 ∧ text_score 1 2 3 = (1 : ℝ) / 2 := by
  refine ⟨by decide, ?_⟩
  rw [(text_score_spec 1 2 3).1 (by norm_num) (by norm_num)]
  norm_num

/-- Claim C10: rank_snippets is total on unequal-length inputs: it returns
exactly `min |sections| |match_counts|` scored snippets, and the output
is a permutation of the index-wise pairing of section `i` with count
`i`, where every score's term-frequency denominator is the sum of the
whole `match_counts` list (entries beyond the shorter length
included). -/
theorem rank_snippets_total (sections : List BundleSection)
    (match_counts : List Nat) (weights : RankingWeights) :
    (rank_snippets sections match_counts weights).length =
      min sections.length match_counts.length ∧
    (rank_snippets sections match_counts weights).Perm
      (List.zipWith (mkScored match_counts.sum sections.length weights)
        sections match_counts) := by
  have hperm : (rank_snippets sections match_counts weights).Perm
      (List.zipWith (mkScored match_counts.sum sections.length weights)
        sections match_counts) :=
    List.perm_insertionSort _ _
  exact ⟨by rw [hperm.length_eq, List.length_zipWith], hperm⟩

/-! ## Manifest model and JSON round-trip (`src/manifest.rs`)

`write_manifest`/`read_manifest` serialize through `serde_json`; the
derived `Serialize`/`Deserialize` impls map each struct to a JSON
object keyed by field name.  The round-trip is modelled at the JSON
value level: `f64` fields are modelled by `ℚ` (serde_json prints
finite doubles with a shortest round-tripping representation), and an
unsigned integer deserializes from a JSON number exactly when it is a
non-negative integer. -/

/-- JSON values; numbers carry exact rationals. -/
inductive Json where
  | null
  | bool (b : Bool)
  | num (q : ℚ)
  | str (s : String)
  | arr (elems : List Json)
  | obj (members : List (String × Json))

/-- `WeightsUsed` (src/manifest.rs:47-53). -/
structure WeightsUsed where
  text : ℚ
  diff : ℚ
  recency : ℚ
  proximity : ℚ
  test : ℚ
deriving DecidableEq, Repr

/-- `ManifestSummary` (src/manifest.rs:28-43). -/
structure ManifestSummary where
  total_tokens : Nat
  budget : Option Nat
  reserve_tokens : Nat
  snippet_count : Nat
  included_count : Nat
  model : String
  weights_used : Option WeightsUsed
deriving DecidableEq, Repr

/-- `Manifest` (src/manifest.rs:19-24). -/
structure Manifest where
  summary : ManifestSummary
  entries : List ManifestEntry
deriving DecidableEq, Repr

def natToJson (n : Nat) : Json := Json.num (n : ℚ)

def optNatToJson : Option Nat → Json
  | none => Json.null
  | some n => natToJson n

def weightsToJson (w : WeightsUsed) : Json :=
  Json.obj [("text", Json.num w.text), ("diff", Json.num w.diff),
    ("recency", Json.num w.recency), ("proximity", Json.num w.proximity),
    ("test", Json.num w.test)]

def optWeightsToJson : Option WeightsUsed → Json
  | none => Json.null
  | some w => weightsToJson w

/-- Derived `Serialize` for `ManifestEntry`: field names in declaration
order. -/
def entryToJson (e : ManifestEntry) : Json :=
  Json.obj [("file_path", Json.str e.file_path),
    ("start_line", natToJson e.start_line),
    ("end_line", natToJson e.end_line),
    ("token_estimate", natToJson e.token_estimate),
    ("char_count", natToJson e.char_count),
    ("reason", Json.str e.reason),
    ("score", Json.num e.score),
    ("included", Json.bool e.included),
    ("language", Json.str e.language)]

/-- Derived `Serialize` for `ManifestSummary`. -/
def summaryToJson (s : ManifestSummary) : Json :=
  Json.obj [("total_tokens", natToJson s.total_tokens),
    ("budget", optNatToJson s.budget),
    ("reserve_tokens", natToJson s.reserve_tokens),
    ("snippet_count", natToJson s.snippet_count),
    ("included_count", natToJson s.included_count),
    ("model", Json.str s.model),
    ("weights_used", optWeightsToJson s.weights_used)]

/-- Derived `Serialize` for `Manifest` (src/manifest.rs:112). -/
def manifestToJson (m : Manifest) : Json :=
  Json.obj [("summary", summaryToJson m.summary),
    ("entries", Json.arr (m.entries.map entryToJson))]

def jField (kvs : List (String × Json)) (name : String) : Except String Json :=
  match kvs.lookup name with
  | some v => Except.ok v
  | none => Except.error ("missing field " ++ name)

def jNat : Json → Except String Nat
  | Json.num q =>
    if h : q.den = 1 ∧ 0 ≤ q.num then Except.ok q.num.toNat
    else Except.error "expected unsigned integer"
  | _ => Except.error "expected unsigned integer"

def jRat : Json → Except String ℚ
  | Json.num q => Except.ok q
  | _ => Except.error "expected number"

def jStr : Json → Except String String
  | Json.str s => Except.ok s
  | _ => Except.error "expected string"

def jBool : Json → Except String Bool
  | Json.bool b => Except.ok b
  | _ => Except.error "expected boolean"

def jArr : Json → Except String (List Json)
  | Json.arr l => Except.ok l
  | _ => Except.error "expected array"

/-- `Option<T>` deserializes `null` to `None` and anything else through
`T`. -/
def jOptNat : Json → Except String (Option Nat)
  | Json.null => Except.ok none
  | j => (jNat j).map some

def weightsFromJson : Json → Except String WeightsUsed
  | Json.obj kvs => do
    let text ← jRat (← jField kvs "text")
    let diff ← jRat (← jField kvs "diff")
    let recency ← jRat (← jField kvs "recency")
    let proximity ← jRat (← jField kvs "proximity")
    let test ← jRat (← jField kvs "test")
    pure ⟨text, diff, recency, proximity, test⟩
  | _ => Except.error "expected object"

def jOptWeights : Json → Except String (Option WeightsUsed)
  | Json.null => Except.ok none
  | j => (weightsFromJson j).map some

def entryFromJson : Json → Except String ManifestEntry
  | Json.obj kvs => do
    let file_path ← jStr (← jField kvs "file_path")
    let start_line ← jNat (← jField kvs "start_line")
    let end_line ← jNat (← jField kvs "end_line")
    let token_estimate ← jNat (← jField kvs "token_estimate")
    let char_count ← jNat (← jField kvs "char_count")
    let reason ← jStr (← jField kvs "reason")
    let score ← jRat (← jField kvs "score")
    let included ← jBool (← jField kvs "included")
    let language ← jStr (← jField kvs "language")
    pure ⟨file_path, start_line, end_line, token_estimate, char_count,
      reason, score, included, language⟩
  | _ => Except.error "expected object"

def summaryFromJson : Json → Except String ManifestSummary
  | Json.obj kvs => do
    let total_tokens ← jNat (← jField kvs "total_tokens")
    let budget ← jOptNat (← jField kvs "budget")
    let reserve_tokens ← jNat (← jField kvs "reserve_tokens")
    let snippet_count ← jNat (← jField kvs "snippet_count")
    let included_count ← jNat (← jField kvs "included_count")
    let model ← jStr (← jField kvs "model")
    let weights_used ← jOptWeights (← jField kvs "weights_used")
    pure ⟨total_tokens, budget, reserve_tokens, snippet_count,
      included_count, model, weights_used⟩
  | _ => Except.error "expected object"

def manifestFromJson : Json → Except String Manifest
  | Json.obj kvs => do
    let summary ← summaryFromJson (← jField kvs "summary")
    let entries ← (← jArr (← jField kvs "entries")).mapM entryFromJson
    pure ⟨summary, entries⟩
  | _ => Except.error "expected object"

lemma exceptOk_bind {ε α β : Type} (x : α) (f : α → Except ε β) :
    (Except.ok x : Except ε α) >>= f = f x := rfl

lemma exceptPure_eq_ok {ε α : Type} (x : α) :
    (pure x : Except ε α) = Except.ok x := rfl

lemma jNat_natToJson (n : Nat) : jNat (natToJson n) = Except.ok n := rfl

lemma jOptNat_optNatToJson (o : Option Nat) :
    jOptNat (optNatToJson o) = Except.ok o := by
  rcases o with _ | n
  · rfl
  · show (jNat (natToJson n)).map some = Except.ok (some n)
    rw [jNat_natToJson]
    rfl

lemma weightsFromJson_toJson (w : WeightsUsed) :
    weightsFromJson (weightsToJson w) = Except.ok w := by
  rcases w with ⟨t, d, r, p, s⟩
  rfl

lemma jOptWeights_optWeightsToJson (o : Option WeightsUsed) :
    jOptWeights (optWeightsToJson o) = Except.ok o := by
  rcases o with _ | w
  · rfl
  · show (weightsFromJson (weightsToJson w)).map some = Except.ok (some w)
    rw [weightsFromJson_toJson]
    rfl

lemma entryFromJson_toJson (e : ManifestEntry) :
    entryFromJson (entryToJson e) = Except.ok e := by
  rcases e with ⟨fp, sl, el, te, cc, re, sc, inc, la⟩
  rfl

lemma summaryFromJson_toJson (s : ManifestSummary) :
    summaryFromJson (summaryToJson s) = Except.ok s := by
  rcases s with ⟨tt, bu, re, sn, ic, mo, wu⟩
  rcases bu with _ | b <;> rcases wu with _ | w <;> rfl

lemma mapM_entryFromJson (l : List ManifestEntry) :
    (l.map entryToJson).mapM entryFromJson = Except.ok l := by
  induction l with
  | nil => rfl
  | cons e t ih =>
    rw [List.map_cons, List.mapM_cons, entryFromJson_toJson e, exceptOk_bind, ih]
    rfl

/-- Claim C8: serializing any `Manifest` — with an empty or populated entry
list — and deserializing the result returns the original value, over
all summary and entry fields. -/
theorem manifest_roundtrip (m : Manifest) :
    manifestFromJson (manifestToJson m) = Except.ok m := by
  rcases m with ⟨s, entries⟩
  rw [show manifestFromJson (manifestToJson ⟨s, entries⟩) =
        summaryFromJson (summaryToJson s) >>= (fun summary =>
          (entries.map entryToJson).mapM entryFromJson >>= fun es =>
            (pure ⟨summary, es⟩ : Except String Manifest)) from rfl]
  rw [summaryFromJson_toJson, exceptOk_bind, mapM_entryFromJson, exceptOk_bind]
  rfl

end ContextSmith

